import Mathlib

/-!
Verification of the layout core of `mermaid_to_visio.py`.

The file shallowly embeds the two layout engines of the repository
(`FlowLayoutEngine` and `HilbertLayoutEngine`) together with the module
constants they use.  Python dictionaries are modelled as association
lists in insertion order with insert-or-update semantics (`dictSet`),
Python floats are idealized as exact rationals, and the two `while`
loops of the source (`calculate_levels` BFS and `hilbert_d2xy`) are
modelled with an explicit iteration budget that provably exceeds the
number of iterations the source performs, so the embedding computes the
same result as the source on every input.
-/

namespace MermaidLayout

/-- Embeds the module constant `A4_WIDTH = 11.69` (inches, landscape). -/
def A4_WIDTH : ℚ := 1169 / 100

/-- Embeds the module constant `A4_HEIGHT = 8.27`. -/
def A4_HEIGHT : ℚ := 827 / 100

/-- Embeds the module constant `MARGIN = 0.5`. -/
def MARGIN : ℚ := 1 / 2

/-- Embeds the module constant `SHAPE_WIDTH = 1.5`. -/
def SHAPE_WIDTH : ℚ := 3 / 2

/-- Embeds the module constant `SHAPE_HEIGHT = 0.75`. -/
def SHAPE_HEIGHT : ℚ := 3 / 4

/-- The abstract graph handed to a layout engine: the keys of the
`nodes` dictionary in insertion order (labels are never read by the
layout code) and the ordered edge list `(from_id, to_id)`.  The parser
registers both endpoints of every edge in `nodes`, so in the program
every edge endpoint occurs in `nodes`; the embedding keeps that as an
explicit hypothesis where a claim needs it. -/
structure Graph where
  nodes : List String
  edges : List (String × String)

/-- Python dictionary assignment `dict[k] = v` on an association list:
update the value in place when the key is present (the key keeps its
original position), otherwise append the new entry at the end. -/
def dictSet {α : Type} (l : List (String × α)) (k : String) (v : α) :
    List (String × α) :=
  if (l.map Prod.fst).contains k then
    l.map (fun p => if p.1 == k then (p.1, v) else p)
  else
    l ++ [(k, v)]

/-! ### Flow layout engine -/

/-- Embeds the `incoming` in-degree count of `calculate_levels`:
`incoming[to_id] += 1` over the edge list. -/
def incomingCount (edges : List (String × String)) (nid : String) : ℕ :=
  (edges.filter (fun e => e.2 == nid)).length

/-- Embeds the `outgoing` adjacency list of `calculate_levels`:
`outgoing[from_id].append(to_id)` over the edge list, in edge order. -/
def outgoingList (edges : List (String × String)) (nid : String) :
    List String :=
  (edges.filter (fun e => e.1 == nid)).map Prod.snd

/-- Embeds the root selection of `calculate_levels`: nodes with no
incoming edges, and if there are none, every node (`if not roots:
roots = list(self.nodes.keys())`). -/
def rootsOf (g : Graph) : List String :=
  let roots := g.nodes.filter (fun nid => incomingCount g.edges nid == 0)
  if roots.isEmpty then g.nodes else roots

/-- Embeds the BFS `while queue:` loop of `calculate_levels`.  The queue
is a FIFO deque of `(node_id, level)` pairs, `visited` is the visited
set, `levels` the levels dictionary in insertion order.  Each iteration
pops the front; an unvisited node is recorded at its level and its
unvisited children are appended with level + 1.  The `fuel` argument
bounds the number of iterations; the caller supplies a budget that is
at least the number of elements the source loop ever enqueues, so the
loop always drains its queue before the budget runs out and the result
equals the source result. -/
def bfsLevels (out : String → List String) :
    ℕ → List (String × ℕ) → List String → List (String × ℕ) →
    List (String × ℕ)
  | 0, _, _, levels => levels
  | _ + 1, [], _, levels => levels
  | fuel + 1, (nid, lvl) :: rest, visited, levels =>
    if visited.contains nid then
      bfsLevels out fuel rest visited levels
    else
      bfsLevels out fuel
        (rest ++ ((out nid).filter
            (fun c => !((nid :: visited).contains c))).map (fun c => (c, lvl + 1)))
        (nid :: visited)
        (levels ++ [(nid, lvl)])

/-- Embeds `FlowLayoutEngine.calculate_levels`: multi-source BFS from
the roots at level 0, then `levels[node_id] = 0` for every node the
traversal never reached.  The iteration budget `nodes.length +
edges.length` bounds the total number of queue insertions of the source
loop (at most one start entry per root plus at most one child entry per
edge), so the embedded loop computes exactly what the source does. -/
def calculateLevels (g : Graph) : List (String × ℕ) :=
  let bfs := bfsLevels (outgoingList g.edges)
    (g.nodes.length + g.edges.length)
    ((rootsOf g).map (fun r => (r, 0))) [] []
  g.nodes.foldl
    (fun acc nid =>
      if (acc.map Prod.fst).contains nid then acc else acc ++ [(nid, 0)])
    bfs

/-- Embeds `max_level = max(levels.values()) if levels else 0`.  For a
nonempty dictionary of natural numbers the fold below equals the Python
maximum. -/
def maxLevelOf (levels : List (String × ℕ)) : ℕ :=
  if levels.isEmpty then 0 else (levels.map Prod.snd).foldr max 0

/-- Embeds the `level_groups` dictionary: the nodes whose level is `l`,
in the insertion order of the levels dictionary. -/
def levelMembers (levels : List (String × ℕ)) (l : ℕ) : List String :=
  (levels.filter (fun p => p.2 == l)).map Prod.fst

/-- Embeds `self.groups.get(nid, "")`, the per-node subgraph key used
for the intra-level sort. -/
def groupKey (groups : List (String × String)) (nid : String) : String :=
  (groups.lookup nid).getD ("")

/-- Embeds `nodes_at_level.sort(key=lambda nid: self.groups.get(nid, ""))`.
Python list.sort is a stable sort by key; a stable sort by a fixed key
is extensionally unique, and insertion sort with the non-strict key
order below is such a stable sort, so it returns exactly the list the
source produces. -/
def sortedMembers (levels : List (String × ℕ)) (groups : List (String × String))
    (l : ℕ) : List String :=
  List.insertionSort (fun a b => groupKey groups a ≤ groupKey groups b)
    (levelMembers levels l)

/-- Embeds the vertical coordinate of `FlowLayoutEngine.layout`:
`self.height / 2` when `max_level == 0`, otherwise
`self.height - MARGIN - (level / max_level) * usable_height`. -/
def yFor (height : ℚ) (maxL l : ℕ) : ℚ :=
  if maxL == 0 then height / 2
  else height - MARGIN - ((l : ℚ) / (maxL : ℚ)) * (height - 2 * MARGIN)

/-- Embeds the horizontal coordinates of `FlowLayoutEngine.layout` for a
level with `k` nodes: `[width / 2]` when `k == 1`, otherwise
`MARGIN + (i + 1) * (usable_width / (k + 1))` for `i = 0 .. k - 1`. -/
def xsFor (width : ℚ) (k : ℕ) : List ℚ :=
  if k == 1 then [width / 2]
  else (List.range k).map
    (fun (i : ℕ) => MARGIN + ((i : ℚ) + 1) * ((width - 2 * MARGIN) / ((k : ℚ) + 1)))

/-- Embeds `FlowLayoutEngine.layout`: for each level `0 .. max_level`,
skip empty level groups, sort the group by subgraph key, and write
`positions[node_id] = (x_positions[i], y_pos)` for each member. -/
def flowLayout (g : Graph) (width height : ℚ)
    (groups : List (String × String)) : List (String × (ℚ × ℚ)) :=
  let levels := calculateLevels g
  let maxL := maxLevelOf levels
  (List.range (maxL + 1)).foldl
    (fun acc l =>
      let members := sortedMembers levels groups l
      if members.isEmpty then acc
      else
        (members.zip (xsFor width members.length)).foldl
          (fun a p => dictSet a p.1 (p.2, yFor height maxL l)) acc)
    []

/-! ### Hilbert layout engine -/

/-- Embeds `rx = 1 & (d // 2)` of `hilbert_d2xy`. -/
def hrx (d : ℕ) : ℕ := 1 &&& (d / 2)

/-- Embeds `ry = 1 & (d ^ rx)` of `hilbert_d2xy`. -/
def hry (d : ℕ) : ℕ := 1 &&& (d ^^^ hrx d)

/-- Embeds `HilbertLayoutEngine.hilbert_rot`: when `ry == 0`, reflect
both coordinates if `rx == 1` and then swap them. -/
def hilbert_rot (n x y rx ry : ℕ) : ℕ × ℕ :=
  if ry = 0 then
    if rx = 1 then (n - 1 - y, n - 1 - x)
    else (y, x)
  else (x, y)

/-- Embeds the `while s < n:` loop of `hilbert_d2xy`: starting from
`s = 1`, repeatedly rotate the running cell by the quadrant selectors
of the two lowest base-4 digits of `d`, add the quadrant offset, shift
`d` right by one base-4 digit and double `s`.  The `fuel` argument
bounds the iteration count; the caller passes `n`, which always
exceeds the `log2 n` iterations the source performs, so the loop always
terminates via its `s < n` test exactly as the source does. -/
def d2xyLoop : ℕ → ℕ → ℕ → ℕ → ℕ → ℕ → ℕ × ℕ
  | 0, _, _, x, y, _ => (x, y)
  | fuel + 1, n, s, x, y, d =>
    if s < n then
      d2xyLoop fuel n (s * 2)
        ((hilbert_rot s x y (hrx d) (hry d)).1 + s * hrx d)
        ((hilbert_rot s x y (hrx d) (hry d)).2 + s * hry d)
        (d / 4)
    else (x, y)

/-- Embeds `HilbertLayoutEngine.hilbert_d2xy(n, d)`: convert the curve
distance `d` to grid coordinates on the `n` by `n` grid. -/
def hilbert_d2xy (n d : ℕ) : ℕ × ℕ := d2xyLoop n n 1 0 0 d

/-- Search helper for `hilbertGridExp`: the least exponent `k`, starting
the search at the given `k`, with `c ≤ 4 ^ k`; the fuel bounds the
number of candidates inspected. -/
def gridExpGo : ℕ → ℕ → ℕ → ℕ
  | 0, _, k => k
  | fuel + 1, c, k => if c ≤ 4 ^ k then k else gridExpGo fuel c (k + 1)

/-- Embeds the exponent `math.ceil(math.log2(math.sqrt(num_nodes)))` of
`HilbertLayoutEngine.layout` in exact real arithmetic: for `c ≥ 1` the
ceiling of `log2 (sqrt c)` is the least natural `k` with
`2 ^ k ≥ sqrt c`, that is, with `4 ^ k ≥ c`.  (The source only
evaluates this for `c ≥ 1`; at `c = 0` it raises instead, which
`hilbertLayout` models separately.) -/
def hilbertGridExp (c : ℕ) : ℕ := gridExpGo c c 0

/-- Embeds `n = 2 ** math.ceil(math.log2(math.sqrt(num_nodes)))`, the
side length of the Hilbert grid. -/
def hilbertGridSize (c : ℕ) : ℕ := 2 ^ hilbertGridExp c

/-- Embeds `HilbertLayoutEngine.layout`.  With zero nodes the source
raises `ValueError` inside `math.log2(math.sqrt(0))`, modelled as
`none`; otherwise every node, in insertion order, is mapped through the
Hilbert curve and scaled to the page. -/
def hilbertLayout (g : Graph) (width height : ℚ) :
    Option (List (String × (ℚ × ℚ))) :=
  let count := g.nodes.length
  if count = 0 then none
  else
    let n := hilbertGridSize count
    let usableW := width - 2 * MARGIN - SHAPE_WIDTH
    let usableH := height - 2 * MARGIN - SHAPE_HEIGHT
    some (g.nodes.enum.foldl
      (fun acc p =>
        let cell := hilbert_d2xy n p.1
        dictSet acc p.2
          (MARGIN + SHAPE_WIDTH / 2 + ((cell.1 : ℚ) / (n : ℚ)) * usableW,
           MARGIN + SHAPE_HEIGHT / 2 + ((cell.2 : ℚ) / (n : ℚ)) * usableH))
      [])

/-! ### Association list helper lemmas -/

theorem contains_iff {l : List String} {a : String} :
    l.contains a = true ↔ a ∈ l :=
  List.elem_iff

theorem dictSet_fresh {α : Type} (l : List (String × α)) (k : String) (v : α)
    (h : ¬ k ∈ l.map Prod.fst) : dictSet l k v = l ++ [(k, v)] := by
  unfold dictSet
  rw [if_neg]
  intro hc
  exact h (contains_iff.mp hc)

theorem keys_nodup_val_unique {α : Type} :
    ∀ {L : List (String × α)}, (L.map Prod.fst).Nodup →
      ∀ {a : String} {b c : α}, (a, b) ∈ L → (a, c) ∈ L → b = c := by
  intro L
  induction L with
  | nil => intro _ a b c hb; simp at hb
  | cons hd tl ih =>
    intro hnd a b c hb hc
    simp only [List.map_cons, List.nodup_cons] at hnd
    rcases List.mem_cons.mp hb with hb1 | hb1 <;>
      rcases List.mem_cons.mp hc with hc1 | hc1
    · exact ((Prod.mk.injEq _ _ _ _).mp (hb1.trans hc1.symm)).2
    · exfalso
      apply hnd.1
      have : hd.1 = a := by rw [← hb1]
      rw [this]
      exact List.mem_map_of_mem Prod.fst hc1
    · exfalso
      apply hnd.1
      have : hd.1 = a := by rw [← hc1]
      rw [this]
      exact List.mem_map_of_mem Prod.fst hb1
    · exact ih hnd.2 hb1 hc1

/-- Folding Python dictionary assignments over entries with pairwise
distinct keys, none already present, appends the entries in order. -/
theorem foldl_dictSet_eq_append {β : Type} (f : β → String) (v : β → ℚ × ℚ) :
    ∀ (ps : List β) (acc : List (String × (ℚ × ℚ))),
      (ps.map f).Nodup →
      (∀ b ∈ ps, ¬ f b ∈ acc.map Prod.fst) →
      ps.foldl (fun a p => dictSet a (f p) (v p)) acc
        = acc ++ ps.map (fun p => (f p, v p)) := by
  intro ps
  induction ps with
  | nil => intro acc _ _; simp
  | cons hd tl ih =>
    intro acc hnd hfresh
    simp only [List.map_cons, List.nodup_cons] at hnd
    have hstep : dictSet acc (f hd) (v hd) = acc ++ [(f hd, v hd)] :=
      dictSet_fresh acc (f hd) (v hd) (hfresh hd (List.mem_cons_self hd tl))
    simp only [List.foldl_cons, hstep]
    rw [ih (acc ++ [(f hd, v hd)]) hnd.2]
    · simp
    · intro b hb
      simp only [List.map_append, List.mem_append, List.map_cons,
        List.map_nil, List.mem_singleton, not_or]
      refine ⟨hfresh b (List.mem_cons_of_mem hd hb), ?_⟩
      intro hEq
      exact hnd.1 (hEq ▸ List.mem_map_of_mem f hb)

/-! ### Level computation lemmas -/

/-- Invariant of the BFS loop: the keys of the levels dictionary stay
duplicate free and inside any set `S` that contains the queued nodes
and is closed under the adjacency function. -/
theorem bfsLevels_keys (out : String → List String) (S : List String)
    (hout : ∀ a c, c ∈ out a → c ∈ S) :
    ∀ (fuel : ℕ) (queue : List (String × ℕ)) (visited : List String)
      (levels : List (String × ℕ)),
      (∀ q ∈ queue, q.1 ∈ S) →
      (levels.map Prod.fst).Nodup →
      (∀ a, a ∈ levels.map Prod.fst ↔ a ∈ visited) →
      (∀ a ∈ levels.map Prod.fst, a ∈ S) →
      ((bfsLevels out fuel queue visited levels).map Prod.fst).Nodup ∧
        (∀ a ∈ (bfsLevels out fuel queue visited levels).map Prod.fst, a ∈ S) := by
  intro fuel
  induction fuel with
  | zero => intro queue visited levels _ h2 _ h4; exact ⟨h2, h4⟩
  | succ fuel ih =>
    intro queue visited levels h1 h2 h3 h4
    match queue with
    | [] => exact ⟨h2, h4⟩
    | (nid, lvl) :: rest =>
      by_cases hv : nid ∈ visited
      · have hcon : visited.contains nid = true := contains_iff.mpr hv
        simp only [bfsLevels, hcon, if_true]
        exact ih rest visited levels
          (fun q hq => h1 q (List.mem_cons_of_mem _ hq)) h2 h3 h4
      · have hcon : visited.contains nid = false := by
          rw [← Bool.not_eq_true]
          intro hc
          exact hv (contains_iff.mp hc)
        simp only [bfsLevels, hcon, Bool.false_eq_true, if_false]
        apply ih
        · intro q hq
          rcases List.mem_append.mp hq with hq1 | hq1
          · exact h1 q (List.mem_cons_of_mem _ hq1)
          · rcases List.mem_map.mp hq1 with ⟨c, hc, hcq⟩
            rw [← hcq]
            exact hout nid c (List.mem_of_mem_filter hc)
        · simp only [List.map_append, List.map_cons, List.map_nil]
          rw [List.nodup_append]
          refine ⟨h2, List.nodup_singleton nid, ?_⟩
          intro a ha hb
          simp only [List.mem_singleton] at hb
          exact hv ((h3 a).mp ha |> (hb ▸ ·))
        · intro a
          simp only [List.map_append, List.map_cons, List.map_nil,
            List.mem_append, List.mem_singleton, List.mem_cons]
          rw [h3 a]
          tauto
        · intro a ha
          simp only [List.map_append, List.map_cons, List.map_nil,
            List.mem_append, List.mem_singleton] at ha
          rcases ha with ha | ha
          · exact h4 a ha
          · rw [ha]
            exact h1 (nid, lvl) (List.mem_cons_self _ _)

/-- The fill loop `levels[node_id] = 0` for unvisited nodes: keys stay
duplicate free, and the final key set is the union of the BFS keys and
the node list. -/
theorem fillFold_keys :
    ∀ (nodes : List String) (base : List (String × ℕ)),
      (base.map Prod.fst).Nodup →
      (((nodes.foldl
          (fun acc nid =>
            if (acc.map Prod.fst).contains nid then acc else acc ++ [(nid, 0)])
          base).map Prod.fst).Nodup ∧
        ∀ a, a ∈ (nodes.foldl
          (fun acc nid =>
            if (acc.map Prod.fst).contains nid then acc else acc ++ [(nid, 0)])
          base).map Prod.fst ↔ a ∈ base.map Prod.fst ∨ a ∈ nodes) := by
  intro nodes
  induction nodes with
  | nil => intro base hb; simpa using hb
  | cons hd tl ih =>
    intro base hb
    by_cases hc : hd ∈ base.map Prod.fst
    · have : (base.map Prod.fst).contains hd = true := contains_iff.mpr hc
      simp only [List.foldl_cons, this, if_true]
      rcases ih base hb with ⟨hn, hiff⟩
      refine ⟨hn, fun a => ?_⟩
      rw [hiff a]
      simp only [List.mem_cons]
      constructor
      · tauto
      · rintro (ha | rfl | ha) <;> tauto
    · have : (base.map Prod.fst).contains hd = false := by
        rw [← Bool.not_eq_true]
        intro h
        exact hc (contains_iff.mp h)
      simp only [List.foldl_cons, this, Bool.false_eq_true, if_false]
      have hb2 : ((base ++ [(hd, 0)]).map Prod.fst).Nodup := by
        simp only [List.map_append, List.map_cons, List.map_nil]
        rw [List.nodup_append]
        refine ⟨hb, List.nodup_singleton hd, ?_⟩
        intro a ha hmem
        simp only [List.mem_singleton] at hmem
        exact hc (hmem ▸ ha)
      rcases ih (base ++ [(hd, 0)]) hb2 with ⟨hn, hiff⟩
      refine ⟨hn, fun a => ?_⟩
      rw [hiff a]
      simp only [List.map_append, List.map_cons, List.map_nil,
        List.mem_append, List.mem_singleton, List.mem_cons]
      tauto

theorem rootsOf_subset (g : Graph) : ∀ a ∈ rootsOf g, a ∈ g.nodes := by
  intro a ha
  unfold rootsOf at ha
  by_cases h : (g.nodes.filter (fun nid => incomingCount g.edges nid == 0)).isEmpty
  · simpa [h] using ha
  · simp only [h, Bool.false_eq_true, if_false] at ha
    exact List.mem_of_mem_filter ha

theorem outgoingList_subset (edges : List (String × String)) (a c : String)
    (h : c ∈ outgoingList edges a) : c ∈ edges.map Prod.snd := by
  unfold outgoingList at h
  rcases List.mem_map.mp h with ⟨e, he, hec⟩
  exact hec ▸ List.mem_map_of_mem Prod.snd (List.mem_of_mem_filter he)

/-- The keys of the computed levels dictionary are duplicate free, for
every input graph. -/
theorem calculateLevels_keys_nodup (g : Graph) :
    ((calculateLevels g).map Prod.fst).Nodup := by
  unfold calculateLevels
  have hbfs := bfsLevels_keys (outgoingList g.edges)
    (g.nodes ++ g.edges.map Prod.snd)
    (fun a c hc => List.mem_append.mpr (Or.inr (outgoingList_subset g.edges a c hc)))
    (g.nodes.length + g.edges.length)
    ((rootsOf g).map (fun r => (r, 0))) [] []
    (by
      intro q hq
      rcases List.mem_map.mp hq with ⟨r, hr, hrq⟩
      exact List.mem_append.mpr (Or.inl (hrq ▸ rootsOf_subset g r hr)))
    (by simp) (by simp) (by simp)
  exact (fillFold_keys g.nodes _ hbfs.1).1

/-- When every edge target is a declared node, the keys of the levels
dictionary are exactly the nodes of the graph. -/
theorem calculateLevels_keys_iff (g : Graph)
    (hclosed : ∀ e ∈ g.edges, e.2 ∈ g.nodes) :
    ∀ a, a ∈ (calculateLevels g).map Prod.fst ↔ a ∈ g.nodes := by
  unfold calculateLevels
  have hbfs := bfsLevels_keys (outgoingList g.edges)
    (g.nodes ++ g.edges.map Prod.snd)
    (fun a c hc => List.mem_append.mpr (Or.inr (outgoingList_subset g.edges a c hc)))
    (g.nodes.length + g.edges.length)
    ((rootsOf g).map (fun r => (r, 0))) [] []
    (by
      intro q hq
      rcases List.mem_map.mp hq with ⟨r, hr, hrq⟩
      exact List.mem_append.mpr (Or.inl (hrq ▸ rootsOf_subset g r hr)))
    (by simp) (by simp) (by simp)
  intro a
  rw [(fillFold_keys g.nodes _ hbfs.1).2 a]
  constructor
  · rintro (ha | ha)
    · rcases List.mem_append.mp (hbfs.2 a ha) with h | h
      · exact h
      · rcases List.mem_map.mp h with ⟨e, he, hea⟩
        exact hea ▸ hclosed e he
    · exact ha
  · exact Or.inr

theorem calculateLevels_keys_perm (g : Graph) (hn : g.nodes.Nodup)
    (hclosed : ∀ e ∈ g.edges, e.2 ∈ g.nodes) :
    ((calculateLevels g).map Prod.fst).Perm g.nodes :=
  (List.perm_ext_iff_of_nodup (calculateLevels_keys_nodup g) hn).mpr
    (calculateLevels_keys_iff g hclosed)

/-- Every recorded level is at most the computed maximum level. -/
theorem le_maxLevelOf {L : List (String × ℕ)} {a : String} {l : ℕ}
    (h : (a, l) ∈ L) : l ≤ maxLevelOf L := by
  unfold maxLevelOf
  have hne : L.isEmpty = false := by
    cases L with
    | nil => simp at h
    | cons hd tl => rfl
  rw [hne]
  simp only [Bool.false_eq_true, if_false]
  have : l ∈ L.map Prod.snd := List.mem_map_of_mem Prod.snd h
  have hb := List.le_max_of_le (l := L.map Prod.snd) this le_rfl
  simpa using hb

/-! ### Flow layout structure lemmas -/

theorem mem_levelMembers {L : List (String × ℕ)} {a : String} {l : ℕ} :
    a ∈ levelMembers L l ↔ (a, l) ∈ L := by
  unfold levelMembers
  simp only [List.mem_map, List.mem_filter, beq_iff_eq]
  constructor
  · rintro ⟨p, ⟨hp, hpl⟩, hpa⟩
    have : p = (a, l) := by
      cases p
      simp only [Prod.mk.injEq]
      exact ⟨hpa, hpl⟩
    exact this ▸ hp
  · intro h
    exact ⟨(a, l), ⟨h, rfl⟩, rfl⟩

theorem mem_sortedMembers {L : List (String × ℕ)} {groups : List (String × String)}
    {a : String} {l : ℕ} :
    a ∈ sortedMembers L groups l ↔ (a, l) ∈ L := by
  unfold sortedMembers
  rw [(List.perm_insertionSort _ (levelMembers L l)).mem_iff]
  exact mem_levelMembers

theorem levelMembers_nodup {L : List (String × ℕ)} (h : (L.map Prod.fst).Nodup)
    (l : ℕ) : (levelMembers L l).Nodup := by
  unfold levelMembers
  exact List.Nodup.sublist (List.Sublist.map Prod.fst (List.filter_sublist L)) h

theorem sortedMembers_nodup {L : List (String × ℕ)} {groups : List (String × String)}
    (h : (L.map Prod.fst).Nodup) (l : ℕ) : (sortedMembers L groups l).Nodup :=
  (List.perm_insertionSort _ (levelMembers L l)).symm.nodup (levelMembers_nodup h l)

theorem xsFor_length (w : ℚ) (k : ℕ) : (xsFor w k).length = k := by
  unfold xsFor
  by_cases h : k = 1
  · simp [h]
  · have hb : (k == 1) = false := by simpa using h
    rw [hb]
    simp only [Bool.false_eq_true, if_false]
    rw [List.length_map, List.length_range]

/-- One level group of `flowLayout`, as the list of entries it appends
to the positions dictionary. -/
def levelBlock (levels : List (String × ℕ)) (groups : List (String × String))
    (width height : ℚ) (maxL l : ℕ) : List (String × (ℚ × ℚ)) :=
  ((sortedMembers levels groups l).zip
      (xsFor width (sortedMembers levels groups l).length)).map
    (fun p => (p.1, (p.2, yFor height maxL l)))

theorem levelBlock_keys (levels : List (String × ℕ)) (groups : List (String × String))
    (width height : ℚ) (maxL l : ℕ) :
    (levelBlock levels groups width height maxL l).map Prod.fst
      = sortedMembers levels groups l := by
  unfold levelBlock
  rw [List.map_map]
  have hc : (Prod.fst ∘ fun p : String × ℚ => (p.1, (p.2, yFor height maxL l)))
      = Prod.fst := funext fun p => rfl
  rw [hc]
  exact List.map_fst_zip _ _ (le_of_eq (xsFor_length width _).symm)

theorem flowBody_eq (L : List (String × ℕ)) (groups : List (String × String))
    (w h : ℚ) (maxL l : ℕ) (acc : List (String × (ℚ × ℚ)))
    (hK : (L.map Prod.fst).Nodup)
    (hfresh : ∀ a ∈ sortedMembers L groups l, ¬ a ∈ acc.map Prod.fst) :
    (if (sortedMembers L groups l).isEmpty then acc
     else ((sortedMembers L groups l).zip
         (xsFor w (sortedMembers L groups l).length)).foldl
       (fun a p => dictSet a p.1 (p.2, yFor h maxL l)) acc)
      = acc ++ levelBlock L groups w h maxL l := by
  by_cases he : (sortedMembers L groups l).isEmpty
  · have hnil : sortedMembers L groups l = [] := List.isEmpty_iff.mp he
    simp [he, levelBlock, hnil]
  · simp only [he, Bool.false_eq_true, if_false]
    rw [foldl_dictSet_eq_append Prod.fst (fun p => (p.2, yFor h maxL l))]
    · rfl
    · rw [List.map_fst_zip _ _ (le_of_eq (xsFor_length w _).symm)]
      exact sortedMembers_nodup hK l
    · intro b hb
      exact hfresh b.1 (List.of_mem_zip hb).1

theorem foldl_levels_eq (L : List (String × ℕ)) (groups : List (String × String))
    (w h : ℚ) (maxL : ℕ) (hK : (L.map Prod.fst).Nodup) :
    ∀ (ls : List ℕ) (acc : List (String × (ℚ × ℚ))),
      ls.Nodup →
      (∀ l ∈ ls, ∀ a ∈ sortedMembers L groups l, ¬ a ∈ acc.map Prod.fst) →
      ls.foldl
        (fun acc l =>
          if (sortedMembers L groups l).isEmpty then acc
          else ((sortedMembers L groups l).zip
              (xsFor w (sortedMembers L groups l).length)).foldl
            (fun a p => dictSet a p.1 (p.2, yFor h maxL l)) acc)
        acc
      = acc ++ (ls.map (levelBlock L groups w h maxL)).flatten := by
  intro ls
  induction ls with
  | nil => intro acc _ _; simp
  | cons l t ih =>
    intro acc hnd hfresh
    simp only [List.foldl_cons]
    rw [flowBody_eq L groups w h maxL l acc hK
      (fun a ha => hfresh l (List.mem_cons_self l t) a ha)]
    rw [ih (acc ++ levelBlock L groups w h maxL l) (List.nodup_cons.mp hnd).2]
    · simp
    · intro l2 hl2 a ha
      simp only [List.map_append, List.mem_append, not_or]
      constructor
      · exact hfresh l2 (List.mem_cons_of_mem l hl2) a ha
      · rw [levelBlock_keys]
        intro ha2
        have h1 : (a, l2) ∈ L := mem_sortedMembers.mp ha
        have h2 : (a, l) ∈ L := mem_sortedMembers.mp ha2
        have : l2 = l := keys_nodup_val_unique hK h1 h2
        exact (List.nodup_cons.mp hnd).1 (this ▸ hl2)

/-- The positions dictionary of `flowLayout` is exactly the
concatenation of the per-level blocks: since the level groups have
pairwise disjoint, duplicate free key sets, every dictionary write
appends a fresh entry. -/
theorem flowLayout_eq_blocks (g : Graph) (w h : ℚ)
    (groups : List (String × String)) :
    flowLayout g w h groups
      = ((List.range (maxLevelOf (calculateLevels g) + 1)).map
          (levelBlock (calculateLevels g) groups w h
            (maxLevelOf (calculateLevels g)))).flatten := by
  simp only [flowLayout]
  rw [foldl_levels_eq (calculateLevels g) groups w h _
    (calculateLevels_keys_nodup g) _ [] (List.nodup_range _)
    (by intro l _ a _ ha; simp at ha)]
  simp

/-- Any entry of the flow positions dictionary comes from some level
`l ≤ max_level`: its key is a member of that level group, its first
coordinate is one of the `x_positions` of the group and its second
coordinate is the `y_pos` of the level. -/
theorem flow_mem_elim {g : Graph} {w h : ℚ} {groups : List (String × String)}
    {nid : String} {p : ℚ × ℚ}
    (hmem : (nid, p) ∈ flowLayout g w h groups) :
    ∃ l, l ≤ maxLevelOf (calculateLevels g) ∧
      nid ∈ sortedMembers (calculateLevels g) groups l ∧
      p.1 ∈ xsFor w (sortedMembers (calculateLevels g) groups l).length ∧
      p.2 = yFor h (maxLevelOf (calculateLevels g)) l := by
  rw [flowLayout_eq_blocks] at hmem
  rcases List.mem_flatten.mp hmem with ⟨blk, hblk, hmem2⟩
  rcases List.mem_map.mp hblk with ⟨l, hl, hleq⟩
  rw [← hleq] at hmem2
  unfold levelBlock at hmem2
  rcases List.mem_map.mp hmem2 with ⟨q, hq, hqe⟩
  rcases (Prod.mk.injEq _ _ _ _).mp hqe with ⟨hq1, hq2⟩
  refine ⟨l, Nat.lt_succ_iff.mp (List.mem_range.mp hl), ?_, ?_, ?_⟩
  · exact hq1 ▸ (List.of_mem_zip hq).1
  · rw [← hq2]
    exact (List.of_mem_zip hq).2
  · rw [← hq2]

/-- The i-th member of the level group at `l ≤ max_level` receives the
i-th of the `x_positions` of the group and the `y_pos` of the level. -/
theorem flow_mem_intro (g : Graph) (w h : ℚ) (groups : List (String × String))
    (l i : ℕ) (hl : l ≤ maxLevelOf (calculateLevels g))
    (hi : i < (sortedMembers (calculateLevels g) groups l).length)
    (hi2 : i < (xsFor w (sortedMembers (calculateLevels g) groups l).length).length) :
    ((sortedMembers (calculateLevels g) groups l).get ⟨i, hi⟩,
      ((xsFor w (sortedMembers (calculateLevels g) groups l).length).get ⟨i, hi2⟩,
        yFor h (maxLevelOf (calculateLevels g)) l)) ∈ flowLayout g w h groups := by
  rw [flowLayout_eq_blocks]
  apply List.mem_flatten.mpr
  refine ⟨levelBlock (calculateLevels g) groups w h (maxLevelOf (calculateLevels g)) l,
    List.mem_map_of_mem _ (List.mem_range.mpr (Nat.lt_succ_of_le hl)), ?_⟩
  unfold levelBlock
  apply List.mem_map.mpr
  refine ⟨((sortedMembers (calculateLevels g) groups l).get ⟨i, hi⟩,
    (xsFor w (sortedMembers (calculateLevels g) groups l).length).get ⟨i, hi2⟩), ?_, rfl⟩
  have hz : i < ((sortedMembers (calculateLevels g) groups l).zip
      (xsFor w (sortedMembers (calculateLevels g) groups l).length)).length := by
    rw [List.length_zip]
    exact lt_min hi hi2
  have hzi := @List.getElem_zip _ _ (sortedMembers (calculateLevels g) groups l)
    (xsFor w (sortedMembers (calculateLevels g) groups l).length) i hz
  simp only [List.get_eq_getElem]
  rw [← hzi]
  exact List.getElem_mem hz

theorem flowLayout_keys_eq (g : Graph) (w h : ℚ)
    (groups : List (String × String)) :
    (flowLayout g w h groups).map Prod.fst
      = ((List.range (maxLevelOf (calculateLevels g) + 1)).map
          (fun l => sortedMembers (calculateLevels g) groups l)).flatten := by
  rw [flowLayout_eq_blocks, List.map_flatten, List.map_map]
  apply congrArg List.flatten
  apply List.map_congr_left
  intro l _
  exact levelBlock_keys (calculateLevels g) groups w h _ l

theorem flowLayout_keys_mem (g : Graph) (w h : ℚ)
    (groups : List (String × String)) (a : String) :
    a ∈ (flowLayout g w h groups).map Prod.fst
      ↔ a ∈ (calculateLevels g).map Prod.fst := by
  rw [flowLayout_keys_eq]
  constructor
  · intro hmem
    rcases List.mem_flatten.mp hmem with ⟨ms, hms, hams⟩
    rcases List.mem_map.mp hms with ⟨l, _, rfl⟩
    exact List.mem_map_of_mem Prod.fst (mem_sortedMembers.mp hams)
  · intro ha
    rcases List.mem_map.mp ha with ⟨q, hq, hqa⟩
    have hq2 : (q.1, q.2) ∈ calculateLevels g := by cases q; exact hq
    apply List.mem_flatten.mpr
    refine ⟨sortedMembers (calculateLevels g) groups q.2,
      List.mem_map_of_mem _
        (List.mem_range.mpr (Nat.lt_succ_of_le (le_maxLevelOf hq2))), ?_⟩
    rw [← hqa]
    exact mem_sortedMembers.mpr hq2

theorem flowLayout_keys_nodup (g : Graph) (w h : ℚ)
    (groups : List (String × String)) :
    ((flowLayout g w h groups).map Prod.fst).Nodup := by
  rw [flowLayout_keys_eq, List.nodup_flatten]
  constructor
  · rintro ms hms
    rcases List.mem_map.mp hms with ⟨l, _, rfl⟩
    exact sortedMembers_nodup (calculateLevels_keys_nodup g) l
  · rw [List.pairwise_map]
    apply (List.pairwise_lt_range _).imp
    intro a b hab x hx1 hx2
    have h1 : (x, a) ∈ calculateLevels g := mem_sortedMembers.mp hx1
    have h2 : (x, b) ∈ calculateLevels g := mem_sortedMembers.mp hx2
    exact absurd (keys_nodup_val_unique (calculateLevels_keys_nodup g) h1 h2)
      (Nat.ne_of_lt hab)

/-! ### Hilbert layout structure lemmas -/

/-- With at least one node and duplicate free node identifiers, the
Hilbert positions dictionary is the node list mapped through the curve
in insertion order: every dictionary write appends a fresh entry. -/
theorem hilbertLayout_eq_map (g : Graph) (w h : ℚ) (hn : g.nodes.Nodup)
    (hne : g.nodes.length ≠ 0) :
    hilbertLayout g w h = some (g.nodes.enum.map (fun p =>
      (p.2,
        (MARGIN + SHAPE_WIDTH / 2 +
          (((hilbert_d2xy (hilbertGridSize g.nodes.length) p.1).1 : ℚ) /
            (hilbertGridSize g.nodes.length : ℚ)) * (w - 2 * MARGIN - SHAPE_WIDTH),
         MARGIN + SHAPE_HEIGHT / 2 +
          (((hilbert_d2xy (hilbertGridSize g.nodes.length) p.1).2 : ℚ) /
            (hilbertGridSize g.nodes.length : ℚ)) * (h - 2 * MARGIN - SHAPE_HEIGHT))))) := by
  simp only [hilbertLayout, hne, if_false]
  congr 1
  rw [foldl_dictSet_eq_append Prod.snd _ g.nodes.enum []]
  · simp
  · rw [List.enum_map_snd]
    exact hn
  · intro b _ hb
    simp at hb

theorem hilbertLayout_keys (g : Graph) (w h : ℚ) (hn : g.nodes.Nodup)
    (hne : g.nodes.length ≠ 0) :
    ∃ ps, hilbertLayout g w h = some ps ∧ ps.map Prod.fst = g.nodes := by
  refine ⟨_, hilbertLayout_eq_map g w h hn hne, ?_⟩
  rw [List.map_map]
  have hc : (Prod.fst ∘ fun p : ℕ × String =>
      ((p.2 : String), ((0 : ℚ), (0 : ℚ)))) = Prod.snd := funext fun p => rfl
  rw [show (Prod.fst ∘ fun p : ℕ × String =>
      (p.2,
        (MARGIN + SHAPE_WIDTH / 2 +
          (((hilbert_d2xy (hilbertGridSize g.nodes.length) p.1).1 : ℚ) /
            (hilbertGridSize g.nodes.length : ℚ)) * (w - 2 * MARGIN - SHAPE_WIDTH),
         MARGIN + SHAPE_HEIGHT / 2 +
          (((hilbert_d2xy (hilbertGridSize g.nodes.length) p.1).2 : ℚ) /
            (hilbertGridSize g.nodes.length : ℚ)) * (h - 2 * MARGIN - SHAPE_HEIGHT))))
      = Prod.snd from funext fun p => rfl]
  exact List.enum_map_snd g.nodes

/-! ### Hilbert curve arithmetic lemmas -/

theorem hrx_eq_mod (d : ℕ) : hrx d = (d / 2) % 2 := by
  unfold hrx
  rw [Nat.land_comm, Nat.and_one_is_mod]

theorem hrx_le_one (d : ℕ) : hrx d ≤ 1 := by
  rw [hrx_eq_mod]
  omega

theorem xor_mod_two (a b : ℕ) : (a ^^^ b) % 2 = (a + b) % 2 := by
  have h := Nat.testBit_xor a b 0
  simp only [Nat.testBit_zero] at h
  rcases Nat.mod_two_eq_zero_or_one a with ha | ha <;>
    rcases Nat.mod_two_eq_zero_or_one b with hb | hb <;>
    rcases Nat.mod_two_eq_zero_or_one (a ^^^ b) with hc | hc <;>
    simp [ha, hb, hc] at h ⊢ <;> omega

theorem hry_eq_mod (d : ℕ) : hry d = (d % 2 + (d / 2) % 2) % 2 := by
  unfold hry
  rw [Nat.land_comm, Nat.and_one_is_mod, xor_mod_two, hrx_eq_mod]
  omega

theorem hry_le_one (d : ℕ) : hry d ≤ 1 := by
  rw [hry_eq_mod]
  omega

/-- Together, the two quadrant selectors and the shifted distance
determine the distance: the loop body loses no information about `d`. -/
theorem d_eq_of_parts {d₁ d₂ : ℕ} (h4 : d₁ / 4 = d₂ / 4)
    (hx : hrx d₁ = hrx d₂) (hy : hry d₁ = hry d₂) : d₁ = d₂ := by
  rw [hrx_eq_mod, hrx_eq_mod] at hx
  rw [hry_eq_mod, hry_eq_mod] at hy
  omega

theorem hilbert_rot_lt (s x y rx ry : ℕ) (hx : x < s) (hy : y < s) :
    (hilbert_rot s x y rx ry).1 < s ∧ (hilbert_rot s x y rx ry).2 < s := by
  unfold hilbert_rot
  split_ifs <;> constructor <;> simp <;> omega

theorem hilbert_rot_invol (s x y rx ry : ℕ) (hx : x < s) (hy : y < s) :
    hilbert_rot s (hilbert_rot s x y rx ry).1 (hilbert_rot s x y rx ry).2 rx ry
      = (x, y) := by
  unfold hilbert_rot
  split_ifs <;> simp [Prod.ext_iff] <;> omega

theorem d2xyLoop_stop : ∀ (fuel n s x y d : ℕ), ¬ s < n →
    d2xyLoop fuel n s x y d = (x, y) := by
  intro fuel
  cases fuel with
  | zero => intro n s x y d h; rfl
  | succ f => intro n s x y d h; simp [d2xyLoop, h]

theorem quadrant_lt {s a r : ℕ} (ha : a < s) (hr : r ≤ 1) :
    a + s * r < s * 2 := by
  interval_cases r <;> omega

theorem quadrant_eq {s a₁ a₂ r₁ r₂ : ℕ} (ha₁ : a₁ < s) (ha₂ : a₂ < s)
    (hr₁ : r₁ ≤ 1) (hr₂ : r₂ ≤ 1) (h : a₁ + s * r₁ = a₂ + s * r₂) :
    r₁ = r₂ ∧ a₁ = a₂ := by
  interval_cases r₁ <;> interval_cases r₂ <;> omega

/-- The loop keeps both coordinates below the running grid size: called
on an empty cell with grid size `2 ^ (j + m)` from scale `2 ^ j`, it
lands inside the grid. -/
theorem d2xyLoop_bounds : ∀ (m fuel j x y d : ℕ), m ≤ fuel →
    x < 2 ^ j → y < 2 ^ j →
    (d2xyLoop fuel (2 ^ (j + m)) (2 ^ j) x y d).1 < 2 ^ (j + m) ∧
      (d2xyLoop fuel (2 ^ (j + m)) (2 ^ j) x y d).2 < 2 ^ (j + m) := by
  intro m
  induction m with
  | zero =>
    intro fuel j x y d _ hx hy
    rw [Nat.add_zero]
    rw [d2xyLoop_stop fuel _ _ x y d (lt_irrefl _)]
    exact ⟨hx, hy⟩
  | succ m ih =>
    intro fuel j x y d hf hx hy
    obtain ⟨f, rfl⟩ : ∃ f, fuel = f + 1 := ⟨fuel - 1, by omega⟩
    have hs : (2 : ℕ) ^ j < 2 ^ (j + (m + 1)) :=
      Nat.pow_lt_pow_right (by norm_num) (by omega)
    simp only [d2xyLoop, hs, if_true]
    have e1 : (2 : ℕ) ^ j * 2 = 2 ^ (j + 1) := by rw [pow_succ]
    have e2 : (2 : ℕ) ^ (j + (m + 1)) = 2 ^ ((j + 1) + m) := by
      congr 1
      omega
    rw [e1, e2]
    have hrot := hilbert_rot_lt (2 ^ j) x y (hrx d) (hry d) hx hy
    have h1 : (hilbert_rot (2 ^ j) x y (hrx d) (hry d)).1 + 2 ^ j * hrx d
        < 2 ^ (j + 1) := by
      rw [pow_succ]
      exact quadrant_lt hrot.1 (hrx_le_one d)
    have h2 : (hilbert_rot (2 ^ j) x y (hrx d) (hry d)).2 + 2 ^ j * hry d
        < 2 ^ (j + 1) := by
      rw [pow_succ]
      exact quadrant_lt hrot.2 (hry_le_one d)
    exact ih f (j + 1) _ _ (d / 4) (by omega) h1 h2

/-- The loop is injective: two initial states with coordinates inside
the starting scale and distances below the number of remaining cells
that produce the same final cell are equal. -/
theorem d2xyLoop_inj : ∀ (m fuel j x₁ y₁ d₁ x₂ y₂ d₂ : ℕ), m ≤ fuel →
    x₁ < 2 ^ j → y₁ < 2 ^ j → x₂ < 2 ^ j → y₂ < 2 ^ j →
    d₁ < 4 ^ m → d₂ < 4 ^ m →
    d2xyLoop fuel (2 ^ (j + m)) (2 ^ j) x₁ y₁ d₁
      = d2xyLoop fuel (2 ^ (j + m)) (2 ^ j) x₂ y₂ d₂ →
    x₁ = x₂ ∧ y₁ = y₂ ∧ d₁ = d₂ := by
  intro m
  induction m with
  | zero =>
    intro fuel j x₁ y₁ d₁ x₂ y₂ d₂ _ _ _ _ _ hd₁ hd₂ heq
    rw [Nat.add_zero] at heq
    rw [d2xyLoop_stop fuel _ _ x₁ y₁ d₁ (lt_irrefl _),
      d2xyLoop_stop fuel _ _ x₂ y₂ d₂ (lt_irrefl _)] at heq
    rcases (Prod.mk.injEq _ _ _ _).mp heq with ⟨hxe, hye⟩
    exact ⟨hxe, hye, by omega⟩
  | succ m ih =>
    intro fuel j x₁ y₁ d₁ x₂ y₂ d₂ hf hx₁ hy₁ hx₂ hy₂ hd₁ hd₂ heq
    obtain ⟨f, rfl⟩ : ∃ f, fuel = f + 1 := ⟨fuel - 1, by omega⟩
    have hs : (2 : ℕ) ^ j < 2 ^ (j + (m + 1)) :=
      Nat.pow_lt_pow_right (by norm_num) (by omega)
    simp only [d2xyLoop, hs, if_true] at heq
    have e1 : (2 : ℕ) ^ j * 2 = 2 ^ (j + 1) := by rw [pow_succ]
    have e2 : (2 : ℕ) ^ (j + (m + 1)) = 2 ^ ((j + 1) + m) := by
      congr 1
      omega
    rw [e1, e2] at heq
    have hrot₁ := hilbert_rot_lt (2 ^ j) x₁ y₁ (hrx d₁) (hry d₁) hx₁ hy₁
    have hrot₂ := hilbert_rot_lt (2 ^ j) x₂ y₂ (hrx d₂) (hry d₂) hx₂ hy₂
    have hb₁ : (hilbert_rot (2 ^ j) x₁ y₁ (hrx d₁) (hry d₁)).1 + 2 ^ j * hrx d₁
        < 2 ^ (j + 1) := by
      rw [pow_succ]
      exact quadrant_lt hrot₁.1 (hrx_le_one d₁)
    have hb₂ : (hilbert_rot (2 ^ j) x₁ y₁ (hrx d₁) (hry d₁)).2 + 2 ^ j * hry d₁
        < 2 ^ (j + 1) := by
      rw [pow_succ]
      exact quadrant_lt hrot₁.2 (hry_le_one d₁)
    have hb₃ : (hilbert_rot (2 ^ j) x₂ y₂ (hrx d₂) (hry d₂)).1 + 2 ^ j * hrx d₂
        < 2 ^ (j + 1) := by
      rw [pow_succ]
      exact quadrant_lt hrot₂.1 (hrx_le_one d₂)
    have hb₄ : (hilbert_rot (2 ^ j) x₂ y₂ (hrx d₂) (hry d₂)).2 + 2 ^ j * hry d₂
        < 2 ^ (j + 1) := by
      rw [pow_succ]
      exact quadrant_lt hrot₂.2 (hry_le_one d₂)
    rcases ih f (j + 1) _ _ (d₁ / 4) _ _ (d₂ / 4) (by omega) hb₁ hb₂ hb₃ hb₄
      (by omega) (by omega) heq with ⟨hX, hY, hD⟩
    have hrxe := quadrant_eq hrot₁.1 hrot₂.1 (hrx_le_one d₁) (hrx_le_one d₂) hX
    have hrye := quadrant_eq hrot₁.2 hrot₂.2 (hry_le_one d₁) (hry_le_one d₂) hY
    have hDeq : d₁ = d₂ := d_eq_of_parts hD hrxe.1 hrye.1
    have hPair : hilbert_rot (2 ^ j) x₁ y₁ (hrx d₁) (hry d₁)
        = hilbert_rot (2 ^ j) x₂ y₂ (hrx d₂) (hry d₂) :=
      Prod.ext hrxe.2 hrye.2
    have hinv₁ := hilbert_rot_invol (2 ^ j) x₁ y₁ (hrx d₁) (hry d₁) hx₁ hy₁
    have hinv₂ := hilbert_rot_invol (2 ^ j) x₂ y₂ (hrx d₂) (hry d₂) hx₂ hy₂
    rw [hPair, hDeq] at hinv₁
    have hfinal : (x₁, y₁) = (x₂, y₂) := hinv₁.symm.trans hinv₂
    rcases (Prod.mk.injEq _ _ _ _).mp hfinal with ⟨hxe, hye⟩
    exact ⟨hxe, hye, hDeq⟩

/-- The cell computed for any distance lies inside the `2 ^ e` grid. -/
theorem hilbert_d2xy_lt (e d : ℕ) :
    (hilbert_d2xy (2 ^ e) d).1 < 2 ^ e ∧ (hilbert_d2xy (2 ^ e) d).2 < 2 ^ e := by
  unfold hilbert_d2xy
  have h := d2xyLoop_bounds e (2 ^ e) 0 0 0 d (le_of_lt (Nat.lt_two_pow e))
    (by norm_num) (by norm_num)
  simpa using h

/-- Distinct distances below the cell count of the `2 ^ e` grid map to
distinct cells. -/
theorem hilbert_d2xy_inj {e d₁ d₂ : ℕ} (h₁ : d₁ < 4 ^ e) (h₂ : d₂ < 4 ^ e)
    (heq : hilbert_d2xy (2 ^ e) d₁ = hilbert_d2xy (2 ^ e) d₂) : d₁ = d₂ := by
  unfold hilbert_d2xy at heq
  have h := d2xyLoop_inj e (2 ^ e) 0 0 0 d₁ 0 0 d₂
    (le_of_lt (Nat.lt_two_pow e)) (by norm_num) (by norm_num) (by norm_num)
    (by norm_num) h₁ h₂ (by simpa using heq)
  exact h.2.2

/-! ### Grid size lemmas -/

theorem gridExpGo_spec (c : ℕ) : ∀ (fuel k : ℕ),
    (∀ j, j < k → ¬ c ≤ 4 ^ j) → c ≤ 4 ^ (k + fuel) →
    c ≤ 4 ^ gridExpGo fuel c k ∧ ∀ j, c ≤ 4 ^ j → gridExpGo fuel c k ≤ j := by
  intro fuel
  induction fuel with
  | zero =>
    intro k h1 h2
    have hg : gridExpGo 0 c k = k := rfl
    rw [hg]
    refine ⟨by simpa using h2, fun j hj => ?_⟩
    by_contra hlt
    exact h1 j (by omega) hj
  | succ f ih =>
    intro k h1 h2
    by_cases hck : c ≤ 4 ^ k
    · have hg : gridExpGo (f + 1) c k = k := by
        simp [gridExpGo, hck]
      rw [hg]
      refine ⟨hck, fun j hj => ?_⟩
      by_contra hlt
      exact h1 j (by omega) hj
    · have hg : gridExpGo (f + 1) c k = gridExpGo f c (k + 1) := by
        simp [gridExpGo, hck]
      rw [hg]
      apply ih (k + 1)
      · intro j hj
        rcases Nat.lt_succ_iff_lt_or_eq.mp hj with hj | rfl
        · exact h1 j hj
        · exact hck
      · have : k + 1 + f = k + (f + 1) := by omega
        rw [this]
        exact h2

/-- The embedded grid exponent is exactly the ceiling of
`log2 (sqrt c)` for `c ≥ 1`: the least `k` with `c ≤ 4 ^ k`. -/
theorem hilbertGridExp_spec (c : ℕ) :
    c ≤ 4 ^ hilbertGridExp c ∧ ∀ j, c ≤ 4 ^ j → hilbertGridExp c ≤ j := by
  unfold hilbertGridExp
  apply gridExpGo_spec c c 0
  · intro j hj
    omega
  · have := Nat.lt_pow_self (a := 4) (by norm_num) c
    simpa using this.le

theorem hilbertGridSize_sq (c : ℕ) :
    hilbertGridSize c ^ 2 = 4 ^ hilbertGridExp c := by
  unfold hilbertGridSize
  rw [← pow_mul, show (4 : ℕ) = 2 ^ 2 from rfl, ← pow_mul, Nat.mul_comm]

/-! ### Coordinate bounds and evaluation lemmas -/

theorem insertionSort_of_total {α : Type} (r : α → α → Prop) [DecidableRel r]
    (hr : ∀ a b, r a b) : ∀ l : List α, List.insertionSort r l = l := by
  intro l
  induction l with
  | nil => rfl
  | cons a t ih =>
    rw [List.insertionSort, ih]
    cases t with
    | nil => rfl
    | cons b t2 => simp [List.orderedInsert, hr a b]

/-- With no subgraph information every sort key is the empty string, so
the stable sort leaves the level group in its discovery order. -/
theorem sortedMembers_nil_groups (L : List (String × ℕ)) (l : ℕ) :
    sortedMembers L [] l = levelMembers L l := by
  unfold sortedMembers
  apply insertionSort_of_total
  intro a b
  simp [groupKey]

theorem xsFor_get (w : ℚ) (k i : ℕ) (hk : k ≠ 1) (hi : i < (xsFor w k).length) :
    (xsFor w k).get ⟨i, hi⟩
      = MARGIN + ((i : ℚ) + 1) * ((w - 2 * MARGIN) / ((k : ℚ) + 1)) := by
  have hb : (k == 1) = false := by simpa using hk
  simp [xsFor, hb]

theorem xsFor_one (w : ℚ) : xsFor w 1 = [w / 2] := by
  simp [xsFor]

theorem mem_xsFor {w x : ℚ} {k : ℕ} (hw : 2 * MARGIN ≤ w) (hx : x ∈ xsFor w k) :
    MARGIN ≤ x ∧ x ≤ w - MARGIN := by
  unfold xsFor at hx
  by_cases hk : k = 1
  · simp [hk] at hx
    constructor <;> rw [hx] <;> linarith
  · have hb : (k == 1) = false := by simpa using hk
    rw [hb] at hx
    simp only [Bool.false_eq_true, if_false, List.mem_map, List.mem_range] at hx
    rcases hx with ⟨i, hi, rfl⟩
    have hk1 : (0 : ℚ) < (k : ℚ) + 1 := by positivity
    have hu : (0 : ℚ) ≤ w - 2 * MARGIN := by linarith
    have hle : ((i : ℚ) + 1) ≤ (k : ℚ) + 1 := by
      have : (i : ℚ) < (k : ℚ) := by exact_mod_cast hi
      linarith
    have h1 : (0 : ℚ) ≤ ((i : ℚ) + 1) * ((w - 2 * MARGIN) / ((k : ℚ) + 1)) := by
      positivity
    have hcan : ((k : ℚ) + 1) * ((w - 2 * MARGIN) / ((k : ℚ) + 1))
        = w - 2 * MARGIN := by
      field_simp
    have h2 : ((i : ℚ) + 1) * ((w - 2 * MARGIN) / ((k : ℚ) + 1))
        ≤ w - 2 * MARGIN := by
      calc ((i : ℚ) + 1) * ((w - 2 * MARGIN) / ((k : ℚ) + 1))
          ≤ ((k : ℚ) + 1) * ((w - 2 * MARGIN) / ((k : ℚ) + 1)) :=
            mul_le_mul_of_nonneg_right hle (div_nonneg hu hk1.le)
        _ = w - 2 * MARGIN := hcan
    constructor <;> linarith

theorem yFor_bounds {h : ℚ} {maxL l : ℕ} (hh : 2 * MARGIN ≤ h) (hl : l ≤ maxL) :
    MARGIN ≤ yFor h maxL l ∧ yFor h maxL l ≤ h - MARGIN := by
  unfold yFor
  by_cases hm : maxL = 0
  · simp only [hm, beq_self_eq_true, if_true]
    constructor <;> linarith
  · have hb : (maxL == 0) = false := by simpa using hm
    rw [hb]
    simp only [Bool.false_eq_true, if_false]
    have hm1 : (0 : ℚ) < (maxL : ℚ) := by
      exact_mod_cast Nat.pos_of_ne_zero hm
    have ht0 : (0 : ℚ) ≤ (l : ℚ) / (maxL : ℚ) := by positivity
    have ht1 : (l : ℚ) / (maxL : ℚ) ≤ 1 := by
      rw [div_le_one hm1]
      exact_mod_cast hl
    have hu : (0 : ℚ) ≤ h - 2 * MARGIN := by linarith
    have h2 : (l : ℚ) / (maxL : ℚ) * (h - 2 * MARGIN) ≤ h - 2 * MARGIN :=
      mul_le_of_le_one_left hu ht1
    have h3 : 0 ≤ (l : ℚ) / (maxL : ℚ) * (h - 2 * MARGIN) :=
      mul_nonneg ht0 hu
    constructor <;> linarith

theorem ratio_bounds {n k : ℕ} (hk : k < n) :
    0 ≤ ((k : ℚ) / (n : ℚ)) ∧ ((k : ℚ) / (n : ℚ)) ≤ 1 := by
  have hn : (0 : ℚ) < (n : ℚ) := by
    have : 0 < n := by omega
    exact_mod_cast this
  constructor
  · positivity
  · rw [div_le_one hn]
    exact_mod_cast le_of_lt hk

/-- Every entry a chain of dictionary writes can produce is either an
initial entry or carries one of the written values. -/
theorem dictSet_mem {α : Type} {l : List (String × α)} {k : String} {v : α}
    {q : String × α} (h : q ∈ dictSet l k v) : q ∈ l ∨ q.2 = v := by
  unfold dictSet at h
  by_cases hc : (l.map Prod.fst).contains k
  · rw [if_pos hc] at h
    rcases List.mem_map.mp h with ⟨p0, hp0, hq⟩
    by_cases he : p0.1 == k
    · rw [if_pos he] at hq
      right
      rw [← hq]
    · rw [if_neg he] at hq
      left
      exact hq ▸ hp0
  · rw [if_neg hc] at h
    rcases List.mem_append.mp h with h | h
    · exact Or.inl h
    · right
      simp only [List.mem_singleton] at h
      rw [h]

theorem foldl_dictSet_mem {β : Type} (f : β → String) (v : β → ℚ × ℚ) :
    ∀ (ps : List β) (acc : List (String × (ℚ × ℚ))) (q : String × (ℚ × ℚ)),
      q ∈ ps.foldl (fun a p => dictSet a (f p) (v p)) acc →
      q ∈ acc ∨ ∃ b ∈ ps, q.2 = v b := by
  intro ps
  induction ps with
  | nil => intro acc q h; exact Or.inl h
  | cons hd tl ih =>
    intro acc q h
    rcases ih (dictSet acc (f hd) (v hd)) q h with h1 | ⟨b, hb, hq⟩
    · rcases dictSet_mem h1 with h2 | h2
      · exact Or.inl h2
      · exact Or.inr ⟨hd, List.mem_cons_self hd tl, h2⟩
    · exact Or.inr ⟨b, List.mem_cons_of_mem hd hb, hq⟩

/-! ### Claim theorems -/

/-- C1: for every graph with at least one node, duplicate free node
identifiers and every edge endpoint belonging to the node set (the
parser registers both endpoints of every edge, so edge-only identifiers
are part of the node set), each layout engine returns a position
mapping whose keys are exactly the node identifiers: as many entries as
nodes, no identifier missing and none duplicated. -/
theorem spec_C1_layout_totality (g : Graph) (w h : ℚ)
    (groups : List (String × String))
    (hnodup : g.nodes.Nodup) (hlen : 1 ≤ g.nodes.length)
    (hclosed : ∀ e ∈ g.edges, e.1 ∈ g.nodes ∧ e.2 ∈ g.nodes) :
    ((flowLayout g w h groups).map Prod.fst).Perm g.nodes ∧
      ∃ ps, hilbertLayout g w h = some ps ∧ ps.map Prod.fst = g.nodes := by
  constructor
  · have h1 := flowLayout_keys_nodup g w h groups
    have h2 := calculateLevels_keys_perm g hnodup (fun e he => (hclosed e he).2)
    apply (List.perm_ext_iff_of_nodup h1 hnodup).mpr
    intro a
    rw [flowLayout_keys_mem g w h groups a]
    exact h2.mem_iff
  · exact hilbertLayout_keys g w h hnodup (by omega)

/-- C1 witness: the two node chain A to B on the A4 page. -/
theorem spec_C1_layout_totality_witness :
    ((["A", "B"] : List String).Nodup ∧
        1 ≤ (["A", "B"] : List String).length ∧
        (∀ e ∈ [(("A" : String), ("B" : String))],
          e.1 ∈ (["A", "B"] : List String) ∧ e.2 ∈ (["A", "B"] : List String))) ∧
      (((flowLayout ⟨["A", "B"], [("A", "B")]⟩ A4_WIDTH A4_HEIGHT []).map
          Prod.fst).Perm ["A", "B"] ∧
        ∃ ps, hilbertLayout ⟨["A", "B"], [("A", "B")]⟩ A4_WIDTH A4_HEIGHT
            = some ps ∧ ps.map Prod.fst = ["A", "B"]) :=
  ⟨⟨by decide, by decide, by decide⟩,
    spec_C1_layout_totality ⟨["A", "B"], [("A", "B")]⟩ A4_WIDTH A4_HEIGHT []
      (by decide) (by decide) (by decide)⟩

/-- C5: on the chain graph with nodes A, B, C and edges A to B, B to C,
the level computation yields exactly the dictionary A at 0, B at 1 and
C at 2, in that insertion order. -/
theorem spec_C5_dag_levels :
    calculateLevels ⟨["A", "B", "C"], [("A", "B"), ("B", "C")]⟩
      = [("A", 0), ("B", 1), ("C", 2)] := by
  decide

/-- C6: on the three node cycle there is no zero in-degree node, so the
fallback makes every node a root; the computation raises no error,
every node receives a defined level and at least one node (in fact all)
sits at level 0. -/
theorem spec_C6_cycle_all_roots :
    rootsOf ⟨["A", "B", "C"], [("A", "B"), ("B", "C"), ("C", "A")]⟩
        = ["A", "B", "C"] ∧
      calculateLevels ⟨["A", "B", "C"], [("A", "B"), ("B", "C"), ("C", "A")]⟩
        = [("A", 0), ("B", 0), ("C", 0)] ∧
      (∀ nid ∈ (["A", "B", "C"] : List String), ∃ lv,
        (nid, lv) ∈ calculateLevels
          ⟨["A", "B", "C"], [("A", "B"), ("B", "C"), ("C", "A")]⟩) ∧
      (∃ nid ∈ (["A", "B", "C"] : List String),
        (nid, 0) ∈ calculateLevels
          ⟨["A", "B", "C"], [("A", "B"), ("B", "C"), ("C", "A")]⟩) := by
  refine ⟨by decide, by decide, ?_, ?_⟩
  · intro nid hnid
    fin_cases hnid
    · exact ⟨0, by decide⟩
    · exact ⟨0, by decide⟩
    · exact ⟨0, by decide⟩
  · exact ⟨"A", by decide, by decide⟩

/-- C7: with exactly four nodes the grid side is 2 and the four grid
cells computed for the curve distances 0 to 3 are the four distinct
cells of the 2 by 2 grid, each exactly once. -/
theorem spec_C7_hilbert_power_of_four :
    hilbertGridSize 4 = 2 ∧
      (List.range 4).map (hilbert_d2xy (hilbertGridSize 4))
        = [(0, 0), (0, 1), (1, 1), (1, 0)] ∧
      ((List.range 4).map (hilbert_d2xy (hilbertGridSize 4))).Perm
        [(0, 0), (0, 1), (1, 0), (1, 1)] := by
  refine ⟨by decide, by decide, ?_⟩
  decide

/-- C10: for every node count n at least 1, the grid side
2 to the ceiling of log2 of the square root of n satisfies
side squared at least n, so the curve indices 0 to n - 1 all lie below
the cell count and the inverse Hilbert mapping sends the n indices to n
pairwise distinct grid cells. -/
theorem spec_C10_grid_capacity (n : ℕ) (hn : 1 ≤ n) :
    n ≤ hilbertGridSize n ^ 2 ∧
      ∀ i j : ℕ, i < n → j < n →
        hilbert_d2xy (hilbertGridSize n) i = hilbert_d2xy (hilbertGridSize n) j →
        i = j := by
  have hcap : n ≤ 4 ^ hilbertGridExp n := (hilbertGridExp_spec n).1
  constructor
  · rw [hilbertGridSize_sq]
    exact hcap
  · intro i j hi hj heq
    have heq2 : hilbert_d2xy (2 ^ hilbertGridExp n) i
        = hilbert_d2xy (2 ^ hilbertGridExp n) j := heq
    exact hilbert_d2xy_inj (by omega) (by omega) heq2

/-- C10 witness: five nodes fit on the 4 by 4 grid and occupy five
distinct cells. -/
theorem spec_C10_grid_capacity_witness :
    1 ≤ 5 ∧
      (5 ≤ hilbertGridSize 5 ^ 2 ∧
        ∀ i j : ℕ, i < 5 → j < 5 →
          hilbert_d2xy (hilbertGridSize 5) i = hilbert_d2xy (hilbertGridSize 5) j →
          i = j) :=
  ⟨by decide, spec_C10_grid_capacity 5 (by decide)⟩

/-- C2 counterexample: in the chain A to B, node A has level 0, node B
has level 1 and the maximum level is 1.  The claim places level 0 near
the bottom margin (vertical coordinate MARGIN, i.e. 1/2 on the A4 page)
and makes the vertical coordinate decrease as the level decreases; the
code instead computes vertical coordinate height - MARGIN = 7.77 for
the level 0 node and MARGIN = 1/2 for the deepest node, so the level 0
node sits at the top of the page, not the bottom, and the coordinate
rises as the level decreases. -/
theorem spec_C2_counterexample :
    flowLayout ⟨["A", "B"], [("A", "B")]⟩ A4_WIDTH A4_HEIGHT []
        = [("A", (A4_WIDTH / 2, 777 / 100)), ("B", (A4_WIDTH / 2, 1 / 2))] ∧
      ¬ ((777 / 100 : ℚ)
          = MARGIN + ((0 : ℚ) / (1 : ℚ)) * (A4_HEIGHT - 2 * MARGIN)) ∧
      ¬ ((777 / 100 : ℚ) < (1 / 2 : ℚ)) := by
  refine ⟨?_, by norm_num [MARGIN, A4_HEIGHT], by norm_num⟩
  have hL : calculateLevels ⟨["A", "B"], [("A", "B")]⟩ = [("A", 0), ("B", 1)] := by
    decide
  simp only [flowLayout, hL]
  norm_num [maxLevelOf, levelMembers, sortedMembers_nil_groups, xsFor, yFor,
    dictSet, A4_WIDTH, A4_HEIGHT, MARGIN, List.range_succ, List.range_zero]
  all_goals decide

/-- C2 amended: in the flow layout with maximum level at least 1, a
node at level l receives the vertical coordinate
height - MARGIN - (l / maxLevel) * (height - 2 * MARGIN): the vertical
coordinate decreases linearly with increasing level, from
height - MARGIN at level 0 down to MARGIN at the maximum level, so with
the page origin at the bottom left the level 0 nodes render at the top
of the canvas and the deepest level at the bottom. -/
theorem spec_C2_level_to_y (g : Graph) (w h : ℚ)
    (groups : List (String × String)) (nid : String) (l : ℕ)
    (hmem : (nid, l) ∈ calculateLevels g)
    (hmax : 1 ≤ maxLevelOf (calculateLevels g)) :
    (∃ x, (nid, (x, h - MARGIN -
        ((l : ℚ) / (maxLevelOf (calculateLevels g) : ℚ)) * (h - 2 * MARGIN)))
      ∈ flowLayout g w h groups) ∧
    (∀ x y, (nid, (x, y)) ∈ flowLayout g w h groups →
      y = h - MARGIN -
        ((l : ℚ) / (maxLevelOf (calculateLevels g) : ℚ)) * (h - 2 * MARGIN)) := by
  have hyeq : yFor h (maxLevelOf (calculateLevels g)) l
      = h - MARGIN -
        ((l : ℚ) / (maxLevelOf (calculateLevels g) : ℚ)) * (h - 2 * MARGIN) := by
    unfold yFor
    have hb : (maxLevelOf (calculateLevels g) == 0) = false := by
      simp only [beq_eq_false_iff_ne, ne_eq]
      omega
    rw [hb]
    simp
  constructor
  · have hms : nid ∈ sortedMembers (calculateLevels g) groups l :=
      mem_sortedMembers.mpr hmem
    rcases List.mem_iff_get.mp hms with ⟨⟨i, hi⟩, hget⟩
    have hi2 : i < (xsFor w (sortedMembers (calculateLevels g) groups l).length).length := by
      rw [xsFor_length]
      exact hi
    have hintro := flow_mem_intro g w h groups l i (le_maxLevelOf hmem) hi hi2
    refine ⟨(xsFor w (sortedMembers (calculateLevels g) groups l).length).get ⟨i, hi2⟩, ?_⟩
    rw [← hyeq, ← hget]
    exact hintro
  · intro x y hxy
    rcases flow_mem_elim hxy with ⟨l2, _, hnid2, _, hy2⟩
    have hmem2 : (nid, l2) ∈ calculateLevels g := mem_sortedMembers.mp hnid2
    have hll : l2 = l :=
      keys_nodup_val_unique (calculateLevels_keys_nodup g) hmem2 hmem
    have hy3 : y = yFor h (maxLevelOf (calculateLevels g)) l2 := hy2
    rw [hy3, hll, hyeq]

/-- C2 witness: node B of the chain sits at level 1 = maxLevel, with
vertical coordinate MARGIN. -/
theorem spec_C2_level_to_y_witness :
    ((("B" : String), 1) ∈ calculateLevels ⟨["A", "B"], [("A", "B")]⟩ ∧
        1 ≤ maxLevelOf (calculateLevels ⟨["A", "B"], [("A", "B")]⟩)) ∧
      ((∃ x, (("B" : String), (x, A4_HEIGHT - MARGIN -
          ((1 : ℚ) / (maxLevelOf (calculateLevels ⟨["A", "B"], [("A", "B")]⟩) : ℚ))
            * (A4_HEIGHT - 2 * MARGIN)))
        ∈ flowLayout ⟨["A", "B"], [("A", "B")]⟩ A4_WIDTH A4_HEIGHT []) ∧
      (∀ x y, (("B" : String), (x, y))
          ∈ flowLayout ⟨["A", "B"], [("A", "B")]⟩ A4_WIDTH A4_HEIGHT [] →
        y = A4_HEIGHT - MARGIN -
          ((1 : ℚ) / (maxLevelOf (calculateLevels ⟨["A", "B"], [("A", "B")]⟩) : ℚ))
            * (A4_HEIGHT - 2 * MARGIN))) :=
  ⟨⟨by decide, by decide⟩,
    spec_C2_level_to_y ⟨["A", "B"], [("A", "B")]⟩ A4_WIDTH A4_HEIGHT [] "B" 1
      (by decide) (by decide)⟩

/-- C3 counterexample: called directly on the zero node graph, the Flow
engine does not fail and is not rejected inside the engine: it runs to
completion and returns a mapping (the empty one), while the Hilbert
engine does fail (logarithm of zero).  This refutes the claim that
neither engine returns a position mapping and that the Flow engine
fails on the empty precondition. -/
theorem spec_C3_counterexample :
    flowLayout ⟨[], []⟩ A4_WIDTH A4_HEIGHT [] = [] ∧
      hilbertLayout ⟨[], []⟩ A4_WIDTH A4_HEIGHT = none := by
  constructor
  · have hL : calculateLevels ⟨[], []⟩ = [] := by decide
    simp only [flowLayout, hL]
    norm_num [maxLevelOf, levelMembers, sortedMembers, List.insertionSort,
      List.range_succ, List.range_zero]
  · simp [hilbertLayout]

/-- C3 amended: with zero nodes the Hilbert engine fails outright (the
logarithm of zero raises), and it fails only then; the Flow engine does
not fail: it returns the empty mapping, which contains no position at
all, so no incomplete mapping is ever produced.  (In the program, empty
input is rejected by the parser before either engine runs.) -/
theorem spec_C3_empty_behaviour (w h : ℚ) (groups : List (String × String)) :
    hilbertLayout ⟨[], []⟩ w h = none ∧
      flowLayout ⟨[], []⟩ w h groups = [] ∧
      ∀ g : Graph, hilbertLayout g w h = none ↔ g.nodes = [] := by
  refine ⟨by simp [hilbertLayout], ?_, ?_⟩
  · have hL : calculateLevels ⟨[], []⟩ = [] := by decide
    simp only [flowLayout, hL]
    norm_num [maxLevelOf, levelMembers, sortedMembers, List.insertionSort,
      List.range_succ, List.range_zero]
  · intro g
    by_cases hz : g.nodes.length = 0
    · have hnil : g.nodes = [] := List.eq_nil_of_length_eq_zero hz
      simp [hilbertLayout, hz, hnil]
    · have hne : g.nodes ≠ [] := by
        intro hcontra
        rw [hcontra] at hz
        simp at hz
      simp [hilbertLayout, hz, hne]

/-- C4: in the flow layout, a level whose (sorted) group holds k >= 2
nodes assigns its i-th node the horizontal coordinate
MARGIN + (i + 1) * ((width - 2 * MARGIN) / (k + 1)) for i = 0 .. k - 1
(the claim indexes i = 1 .. k), so all gaps, margins included, equal
the common spacing; the group is duplicate free and the coordinates are
pairwise distinct (for a positive usable width), so no two nodes of the
level share an x. -/
theorem spec_C4_even_spacing (g : Graph) (w h : ℚ)
    (groups : List (String × String)) (l : ℕ)
    (hw : 2 * MARGIN < w)
    (hk : 2 ≤ (sortedMembers (calculateLevels g) groups l).length) :
    (∀ (i : ℕ) (hi : i < (sortedMembers (calculateLevels g) groups l).length),
      ((sortedMembers (calculateLevels g) groups l).get ⟨i, hi⟩,
        (MARGIN + ((i : ℚ) + 1) *
          ((w - 2 * MARGIN) /
            (((sortedMembers (calculateLevels g) groups l).length : ℚ) + 1)),
        yFor h (maxLevelOf (calculateLevels g)) l))
        ∈ flowLayout g w h groups) ∧
    (sortedMembers (calculateLevels g) groups l).Nodup ∧
    (∀ i j : ℕ, i ≠ j →
      MARGIN + ((i : ℚ) + 1) *
          ((w - 2 * MARGIN) /
            (((sortedMembers (calculateLevels g) groups l).length : ℚ) + 1))
        ≠ MARGIN + ((j : ℚ) + 1) *
          ((w - 2 * MARGIN) /
            (((sortedMembers (calculateLevels g) groups l).length : ℚ) + 1))) := by
  have hc : (0 : ℚ) < (w - 2 * MARGIN) /
      (((sortedMembers (calculateLevels g) groups l).length : ℚ) + 1) := by
    apply div_pos (by linarith)
    positivity
  refine ⟨?_, sortedMembers_nodup (calculateLevels_keys_nodup g) l, ?_⟩
  · intro i hi
    have hl : l ≤ maxLevelOf (calculateLevels g) := by
      have hne : sortedMembers (calculateLevels g) groups l ≠ [] := by
        intro hcontra
        rw [hcontra] at hk
        simp at hk
      obtain ⟨m, hm⟩ := List.exists_mem_of_ne_nil _ hne
      exact le_maxLevelOf (mem_sortedMembers.mp hm)
    have hi2 : i < (xsFor w (sortedMembers (calculateLevels g) groups l).length).length := by
      rw [xsFor_length]
      exact hi
    have hintro := flow_mem_intro g w h groups l i hl hi hi2
    rwa [xsFor_get w _ i (by omega) hi2] at hintro
  · intro i j hij heq
    have h2 : ((i : ℚ) + 1) * ((w - 2 * MARGIN) /
          (((sortedMembers (calculateLevels g) groups l).length : ℚ) + 1))
        = ((j : ℚ) + 1) * ((w - 2 * MARGIN) /
          (((sortedMembers (calculateLevels g) groups l).length : ℚ) + 1)) := by
      linarith
    have h3 : ((i : ℚ) + 1) = ((j : ℚ) + 1) :=
      mul_right_cancel₀ (ne_of_gt hc) h2
    have h4 : (i : ℚ) = (j : ℚ) := by linarith
    exact hij (by exact_mod_cast h4)

/-- C4 witness: two root nodes share level 0 of the A4 page. -/
theorem spec_C4_even_spacing_witness :
    (2 * MARGIN < A4_WIDTH ∧
        2 ≤ (sortedMembers (calculateLevels ⟨["A", "B"], []⟩) [] 0).length) ∧
      ((∀ (i : ℕ) (hi : i < (sortedMembers (calculateLevels ⟨["A", "B"], []⟩) [] 0).length),
        ((sortedMembers (calculateLevels ⟨["A", "B"], []⟩) [] 0).get ⟨i, hi⟩,
          (MARGIN + ((i : ℚ) + 1) *
            ((A4_WIDTH - 2 * MARGIN) /
              (((sortedMembers (calculateLevels ⟨["A", "B"], []⟩) [] 0).length : ℚ) + 1)),
          yFor A4_HEIGHT (maxLevelOf (calculateLevels ⟨["A", "B"], []⟩)) 0))
          ∈ flowLayout ⟨["A", "B"], []⟩ A4_WIDTH A4_HEIGHT []) ∧
      (sortedMembers (calculateLevels ⟨["A", "B"], []⟩) [] 0).Nodup ∧
      (∀ i j : ℕ, i ≠ j →
        MARGIN + ((i : ℚ) + 1) *
            ((A4_WIDTH - 2 * MARGIN) /
              (((sortedMembers (calculateLevels ⟨["A", "B"], []⟩) [] 0).length : ℚ) + 1))
          ≠ MARGIN + ((j : ℚ) + 1) *
            ((A4_WIDTH - 2 * MARGIN) /
              (((sortedMembers (calculateLevels ⟨["A", "B"], []⟩) [] 0).length : ℚ) + 1)))) :=
  ⟨⟨by norm_num [MARGIN, A4_WIDTH],
      by rw [sortedMembers_nil_groups]; decide⟩,
    spec_C4_even_spacing ⟨["A", "B"], []⟩ A4_WIDTH A4_HEIGHT [] 0
      (by norm_num [MARGIN, A4_WIDTH])
      (by rw [sortedMembers_nil_groups]; decide)⟩

/-- C8: every coordinate either engine produces lies inside the margin
box [MARGIN, width - MARGIN] x [MARGIN, height - MARGIN], whenever the
canvas leaves room for the margins and, for the Hilbert engine, the
node box half offsets (on the A4 defaults the bounds hold with slack). -/
theorem spec_C8_boundary_containment (g : Graph) (w h : ℚ)
    (groups : List (String × String)) (nid : String) (p : ℚ × ℚ)
    (hw : 2 * MARGIN + SHAPE_WIDTH ≤ w) (hh : 2 * MARGIN + SHAPE_HEIGHT ≤ h) :
    ((nid, p) ∈ flowLayout g w h groups →
      MARGIN ≤ p.1 ∧ p.1 ≤ w - MARGIN ∧ MARGIN ≤ p.2 ∧ p.2 ≤ h - MARGIN) ∧
    (∀ ps, hilbertLayout g w h = some ps → (nid, p) ∈ ps →
      MARGIN ≤ p.1 ∧ p.1 ≤ w - MARGIN ∧ MARGIN ≤ p.2 ∧ p.2 ≤ h - MARGIN) := by
  have hswpos : (0 : ℚ) ≤ SHAPE_WIDTH := by norm_num [SHAPE_WIDTH]
  have hshpos : (0 : ℚ) ≤ SHAPE_HEIGHT := by norm_num [SHAPE_HEIGHT]
  have hw2 : 2 * MARGIN ≤ w := by linarith
  have hh2 : 2 * MARGIN ≤ h := by linarith
  constructor
  · intro hmem
    rcases flow_mem_elim hmem with ⟨l, hl, _, hx, hy⟩
    have hxb := mem_xsFor hw2 hx
    have hyb := yFor_bounds hh2 hl
    rw [hy]
    exact ⟨hxb.1, hxb.2, hyb.1, hyb.2⟩
  · intro ps hsome hmem
    by_cases hz : g.nodes.length = 0
    · simp [hilbertLayout, hz] at hsome
    · simp only [hilbertLayout] at hsome
      rw [if_neg hz] at hsome
      have hfold := Option.some.inj hsome
      rw [← hfold] at hmem
      have hval := foldl_dictSet_mem Prod.snd
        (fun q : ℕ × String =>
          (MARGIN + SHAPE_WIDTH / 2 +
            (((hilbert_d2xy (hilbertGridSize g.nodes.length) q.1).1 : ℚ) /
              (hilbertGridSize g.nodes.length : ℚ)) * (w - 2 * MARGIN - SHAPE_WIDTH),
           MARGIN + SHAPE_HEIGHT / 2 +
            (((hilbert_d2xy (hilbertGridSize g.nodes.length) q.1).2 : ℚ) /
              (hilbertGridSize g.nodes.length : ℚ)) * (h - 2 * MARGIN - SHAPE_HEIGHT)))
        g.nodes.enum [] (nid, p) hmem
      rcases hval with h0 | ⟨b, _, hpv⟩
      · simp at h0
      · have hp2 : p =
            (MARGIN + SHAPE_WIDTH / 2 +
              (((hilbert_d2xy (hilbertGridSize g.nodes.length) b.1).1 : ℚ) /
                (hilbertGridSize g.nodes.length : ℚ)) * (w - 2 * MARGIN - SHAPE_WIDTH),
             MARGIN + SHAPE_HEIGHT / 2 +
              (((hilbert_d2xy (hilbertGridSize g.nodes.length) b.1).2 : ℚ) /
                (hilbertGridSize g.nodes.length : ℚ)) * (h - 2 * MARGIN - SHAPE_HEIGHT)) :=
          hpv
        have hcell1 : (hilbert_d2xy (hilbertGridSize g.nodes.length) b.1).1
            < hilbertGridSize g.nodes.length :=
          (hilbert_d2xy_lt (hilbertGridExp g.nodes.length) b.1).1
        have hcell2 : (hilbert_d2xy (hilbertGridSize g.nodes.length) b.1).2
            < hilbertGridSize g.nodes.length :=
          (hilbert_d2xy_lt (hilbertGridExp g.nodes.length) b.1).2
        have hr1 := ratio_bounds hcell1
        have hr2 := ratio_bounds hcell2
        have hu1 : (0 : ℚ) ≤ w - 2 * MARGIN - SHAPE_WIDTH := by linarith
        have hu2 : (0 : ℚ) ≤ h - 2 * MARGIN - SHAPE_HEIGHT := by linarith
        have hm1 : 0 ≤ (((hilbert_d2xy (hilbertGridSize g.nodes.length) b.1).1 : ℚ) /
            (hilbertGridSize g.nodes.length : ℚ)) * (w - 2 * MARGIN - SHAPE_WIDTH) :=
          mul_nonneg hr1.1 hu1
        have hm2 : (((hilbert_d2xy (hilbertGridSize g.nodes.length) b.1).1 : ℚ) /
              (hilbertGridSize g.nodes.length : ℚ)) * (w - 2 * MARGIN - SHAPE_WIDTH)
            ≤ w - 2 * MARGIN - SHAPE_WIDTH :=
          mul_le_of_le_one_left hu1 hr1.2
        have hm3 : 0 ≤ (((hilbert_d2xy (hilbertGridSize g.nodes.length) b.1).2 : ℚ) /
            (hilbertGridSize g.nodes.length : ℚ)) * (h - 2 * MARGIN - SHAPE_HEIGHT) :=
          mul_nonneg hr2.1 hu2
        have hm4 : (((hilbert_d2xy (hilbertGridSize g.nodes.length) b.1).2 : ℚ) /
              (hilbertGridSize g.nodes.length : ℚ)) * (h - 2 * MARGIN - SHAPE_HEIGHT)
            ≤ h - 2 * MARGIN - SHAPE_HEIGHT :=
          mul_le_of_le_one_left hu2 hr2.2
        rw [hp2]
        refine ⟨by dsimp only; linarith, by dsimp only; linarith,
          by dsimp only; linarith, by dsimp only; linarith⟩

/-- C8 witness: the single node graph on the A4 defaults. -/
theorem spec_C8_boundary_containment_witness :
    (2 * MARGIN + SHAPE_WIDTH ≤ A4_WIDTH ∧
        2 * MARGIN + SHAPE_HEIGHT ≤ A4_HEIGHT) ∧
      (((("X" : String), ((A4_WIDTH / 2 : ℚ), (A4_HEIGHT / 2 : ℚ)))
          ∈ flowLayout ⟨["X"], []⟩ A4_WIDTH A4_HEIGHT [] →
        MARGIN ≤ (A4_WIDTH / 2 : ℚ) ∧ (A4_WIDTH / 2 : ℚ) ≤ A4_WIDTH - MARGIN ∧
          MARGIN ≤ (A4_HEIGHT / 2 : ℚ) ∧ (A4_HEIGHT / 2 : ℚ) ≤ A4_HEIGHT - MARGIN) ∧
      (∀ ps, hilbertLayout ⟨["X"], []⟩ A4_WIDTH A4_HEIGHT = some ps →
        (("X" : String), ((A4_WIDTH / 2 : ℚ), (A4_HEIGHT / 2 : ℚ))) ∈ ps →
        MARGIN ≤ (A4_WIDTH / 2 : ℚ) ∧ (A4_WIDTH / 2 : ℚ) ≤ A4_WIDTH - MARGIN ∧
          MARGIN ≤ (A4_HEIGHT / 2 : ℚ) ∧ (A4_HEIGHT / 2 : ℚ) ≤ A4_HEIGHT - MARGIN)) :=
  ⟨⟨by norm_num [MARGIN, SHAPE_WIDTH, A4_WIDTH],
      by norm_num [MARGIN, SHAPE_HEIGHT, A4_HEIGHT]⟩,
    spec_C8_boundary_containment ⟨["X"], []⟩ A4_WIDTH A4_HEIGHT [] "X"
      ((A4_WIDTH / 2 : ℚ), (A4_HEIGHT / 2 : ℚ))
      (by norm_num [MARGIN, SHAPE_WIDTH, A4_WIDTH])
      (by norm_num [MARGIN, SHAPE_HEIGHT, A4_HEIGHT])⟩

/-- C9: a graph with a single node and no edges places that node at the
horizontal and vertical midpoint of the canvas (its only level is 0, so
the maximum level is 0); and in any flow layout, a level whose group
holds exactly one node places it at the horizontal midpoint width / 2. -/
theorem spec_C9_single_node_centering (a : String) (w h : ℚ)
    (gs : List (String × String)) (g : Graph)
    (groups : List (String × String)) (nid : String) (l : ℕ)
    (hsingle : sortedMembers (calculateLevels g) groups l = [nid]) :
    flowLayout ⟨[a], []⟩ w h gs = [(a, (w / 2, h / 2))] ∧
      ∃ y, (nid, (w / 2, y)) ∈ flowLayout g w h groups := by
  constructor
  · have hL : calculateLevels ⟨[a], []⟩ = [(a, 0)] := by
      simp [calculateLevels, bfsLevels, rootsOf, incomingCount, outgoingList]
    simp only [flowLayout, hL]
    norm_num [maxLevelOf, levelMembers, sortedMembers, groupKey,
      List.insertionSort, List.orderedInsert, xsFor, yFor, dictSet,
      List.range_succ, List.range_zero]
  · have hmemL : (nid, l) ∈ calculateLevels g := by
      apply mem_sortedMembers.mp
      rw [hsingle]
      exact List.mem_singleton.mpr rfl
    have hl : l ≤ maxLevelOf (calculateLevels g) := le_maxLevelOf hmemL
    have hblock : levelBlock (calculateLevels g) groups w h
        (maxLevelOf (calculateLevels g)) l
        = [(nid, (w / 2, yFor h (maxLevelOf (calculateLevels g)) l))] := by
      unfold levelBlock
      rw [hsingle]
      simp [xsFor_one]
    refine ⟨yFor h (maxLevelOf (calculateLevels g)) l, ?_⟩
    rw [flowLayout_eq_blocks]
    apply List.mem_flatten.mpr
    refine ⟨levelBlock (calculateLevels g) groups w h
        (maxLevelOf (calculateLevels g)) l,
      List.mem_map_of_mem _ (List.mem_range.mpr (Nat.lt_succ_of_le hl)), ?_⟩
    rw [hblock]
    exact List.mem_singleton.mpr rfl

/-- C9 witness: level 0 of the chain A to B holds only node A, placed
at the horizontal midpoint. -/
theorem spec_C9_single_node_centering_witness :
    sortedMembers (calculateLevels ⟨["A", "B"], [("A", "B")]⟩) [] 0 = ["A"] ∧
      (flowLayout ⟨["Z"], []⟩ A4_WIDTH A4_HEIGHT []
          = [("Z", (A4_WIDTH / 2, A4_HEIGHT / 2))] ∧
        ∃ y, (("A" : String), (A4_WIDTH / 2, y))
          ∈ flowLayout ⟨["A", "B"], [("A", "B")]⟩ A4_WIDTH A4_HEIGHT []) :=
  ⟨by rw [sortedMembers_nil_groups]; decide,
    spec_C9_single_node_centering ("Z") A4_WIDTH A4_HEIGHT []
      ⟨["A", "B"], [("A", "B")]⟩ [] "A" 0
      (by rw [sortedMembers_nil_groups]; decide)⟩

end MermaidLayout
